import Mathlib

/-!
# Extension placement and delta synchronization — verification

A shallow embedding of `src/vs/workbench/services/extensions/browser/extensionService.ts`:
the capability resolver (`pickRunningLocation`), the placement-table builders
(`determineRunningLocation`, `_determineRunningLocation`), the per-host filtering
(`filterByRunningLocation`), the incremental delta partitioner and dispatcher
(`_updateExtensionsOnExtHosts`) and the full-catalog reconciliation
(`_scanAndHandleExtensions`), together with theorems settling the specification
claims about them.

JavaScript `Map` objects keyed by normalized identifier are embedded as association
lists with insert-or-replace `mapSet`, first-hit `mapGet` and `mapDelete`; `Set`
objects of keys are embedded as key lists with decidable membership.  Promise
results of the external host managers are oracle booleans, and the sequencing of
`await`s in the source is kept as explicit sequential control flow.
-/

/-- Capability tags: the TypeScript union `ExtensionKind = 'ui' | 'workspace' | 'web'`. -/
inductive ExtensionKind where
  | ui
  | workspace
  | web
deriving DecidableEq

/-- `const enum ExtensionRunningLocation { None, LocalWebWorker, Remote }` (lines 238–242). -/
inductive ExtensionRunningLocation where
  | None
  | LocalWebWorker
  | Remote
deriving DecidableEq

/-- The slice of `IExtensionDescription` this core reads: the identifier, the capability
tags computed for it by the external `getExtensionKind(manifest, productService,
configService)` (carried here as data, since that computation is outside this file's
source), and whether `extensionLocation.scheme === Schemas.vscodeRemote`. -/
structure ExtensionDescription where
  identifier : String
  extensionKinds : List ExtensionKind
  isRemoteLocation : Bool
deriving DecidableEq

/-- `ExtensionIdentifier.toKey`: identifiers are compared case-insensitively, so every
map and set access lower-cases the identifier first.  (Defined over the character list
so that concrete instances evaluate in the kernel.) -/
def toKey (s : String) : String :=
  String.mk (s.data.map Char.toLower)

/-- First-hit lookup in an association list, the embedding of `Map.prototype.get`. -/
def mapGet {α : Type} : List (String × α) → String → Option α
  | [], _ => none
  | (k', v) :: rest, k => if k' = k then some v else mapGet rest k

/-- Insert-or-replace, the embedding of `Map.prototype.set`. -/
def mapSet {α : Type} : List (String × α) → String → α → List (String × α)
  | [], k, v => [(k, v)]
  | (k', v') :: rest, k, v =>
    if k' = k then (k, v) :: rest else (k', v') :: mapSet rest k v

/-- Remove the first entry with the given key, the embedding of `Map.prototype.delete`. -/
def mapDelete {α : Type} : List (String × α) → String → List (String × α)
  | [], _ => []
  | (k', v) :: rest, k => if k' = k then rest else (k', v) :: mapDelete rest k

/-- The running-location bookkeeping map `this._runningLocation`. -/
abbrev RLMap := List (String × ExtensionRunningLocation)

/-- The normalized keys of a catalog, the embedding of the `Set<string>` built by
`ext => set.add(ExtensionIdentifier.toKey(ext.identifier))`. -/
def extKeys (extensions : List ExtensionDescription) : List String :=
  extensions.map (fun ext => toKey ext.identifier)

/-- `pickRunningLocation` (lines 244–260): scan the declared capability tags in order;
`ui` or `workspace` with a remote installation decides `Remote`, `web` with a local
installation decides `LocalWebWorker`, and falling off the end decides `None`. -/
def pickRunningLocation :
    List ExtensionKind → Bool → Bool → ExtensionRunningLocation
  | [], _, _ => .None
  | extensionKind :: rest, isInstalledLocally, isInstalledRemotely =>
    if extensionKind = .ui ∧ isInstalledRemotely then .Remote
    else if extensionKind = .workspace ∧ isInstalledRemotely then .Remote
    else if extensionKind = .web ∧ isInstalledLocally then .LocalWebWorker
    else pickRunningLocation rest isInstalledLocally isInstalledRemotely

/-- The specification's per-tag rule (spec §4.1 steps 2–4), used to compare
`pickRunningLocation` against the spec's first-match-wins description. -/
def tagDecisionSpec (tag : ExtensionKind) (installedLocally installedRemotely : Bool) :
    Option ExtensionRunningLocation :=
  match tag with
  | .ui => if installedRemotely then some .Remote else none
  | .workspace => if installedRemotely then some .Remote else none
  | .web => if installedLocally then some .LocalWebWorker else none

/-- `determineRunningLocation` (lines 262–280): build the key sets of both catalogs,
resolve every identity with `pickRunningLocation` over its membership flags and its
entry in `allExtensionKinds`, and assemble the table by setting local entries first
and remote entries second.  The `hasRemote` parameter is carried exactly as in the
source signature. -/
def determineRunningLocation (localExtensions remoteExtensions : List ExtensionDescription)
    (allExtensionKinds : List (String × List ExtensionKind)) (hasRemote : Bool) : RLMap :=
  let localExtensionsSet := extKeys localExtensions
  let remoteExtensionsSet := extKeys remoteExtensions
  let pick := fun (extension : ExtensionDescription) =>
    let isInstalledLocally := decide (toKey extension.identifier ∈ localExtensionsSet)
    let isInstalledRemotely := decide (toKey extension.identifier ∈ remoteExtensionsSet)
    let extensionKinds := (mapGet allExtensionKinds (toKey extension.identifier)).getD []
    pickRunningLocation extensionKinds isInstalledLocally isInstalledRemotely
  let afterLocal := localExtensions.foldl
    (fun m ext => mapSet m (toKey ext.identifier) (pick ext)) []
  remoteExtensions.foldl (fun m ext => mapSet m (toKey ext.identifier) (pick ext)) afterLocal

/-- The kind map built at lines 283–285: local records first, then remote records,
each `set` overwriting any earlier entry with the same key. -/
def allExtensionKindsMap (localExtensions remoteExtensions : List ExtensionDescription) :
    List (String × List ExtensionKind) :=
  let afterLocal := localExtensions.foldl
    (fun m ext => mapSet m (toKey ext.identifier) ext.extensionKinds) []
  remoteExtensions.foldl
    (fun m ext => mapSet m (toKey ext.identifier) ext.extensionKinds) afterLocal

/-- `_determineRunningLocation` (lines 282–287): build the kind map, then delegate. -/
def _determineRunningLocation (localExtensions remoteExtensions : List ExtensionDescription)
    (hasRemote : Bool) : RLMap :=
  determineRunningLocation localExtensions remoteExtensions
    (allExtensionKindsMap localExtensions remoteExtensions) hasRemote

/-- `filterByRunningLocation` (lines 289–291). -/
def filterByRunningLocation (extensions : List ExtensionDescription)
    (runningLocation : RLMap) (desiredRunningLocation : ExtensionRunningLocation) :
    List ExtensionDescription :=
  extensions.filter
    (fun ext => decide (mapGet runningLocation (toKey ext.identifier) = some desiredRunningLocation))

/-- The value `determineRunningLocation` stores for a given key: `pickRunningLocation`
over the key's membership in each catalog and its entry in the kind map.  (The closure
`_pickRunningLocation` inside `determineRunningLocation` reads its argument only
through the normalized key, which this function makes explicit.) -/
def pickAtKey (localExtensions remoteExtensions : List ExtensionDescription)
    (allExtensionKinds : List (String × List ExtensionKind)) (key : String) :
    ExtensionRunningLocation :=
  pickRunningLocation ((mapGet allExtensionKinds key).getD [])
    (decide (key ∈ extKeys localExtensions)) (decide (key ∈ extKeys remoteExtensions))

/-- The last record in `l` whose normalized identifier is `k` — the survivor of
last-write-wins `Map.set` iteration. -/
def lastWithKey (l : List ExtensionDescription) (k : String) : Option ExtensionDescription :=
  l.reverse.find? (fun ext => decide (toKey ext.identifier = k))

/-- The running location computed for one record of a `toAdd` delta (line 113):
`pickRunningLocation(extensionKind, !isRemote, isRemote)` where `isRemote` is whether
the record's location scheme is `vscodeRemote`. -/
def addRunningLocation (extension : ExtensionDescription) : ExtensionRunningLocation :=
  pickRunningLocation extension.extensionKinds
    (!extension.isRemoteLocation) extension.isRemoteLocation

/-- The add partition loop of `_updateExtensionsOnExtHosts` (lines 108–120): for each
record, compute its running location, record it in `this._runningLocation`, and push
the record onto the local or remote add list (dropping it when the location is `None`).
Returns the updated map and the two add lists in encounter order. -/
def partitionAdds (runningLocationMap : RLMap) :
    List ExtensionDescription → RLMap × List ExtensionDescription × List ExtensionDescription
  | [] => (runningLocationMap, [], [])
  | extension :: rest =>
    let runningLocation := addRunningLocation extension
    let p := partitionAdds
      (mapSet runningLocationMap (toKey extension.identifier) runningLocation) rest
    match runningLocation with
    | .LocalWebWorker => (p.1, extension :: p.2.1, p.2.2)
    | .Remote => (p.1, p.2.1, extension :: p.2.2)
    | .None => p

/-- The remove partition loop of `_updateExtensionsOnExtHosts` (lines 122–132): for each
identifier, read its previous running location from the map, delete its entry, and push
the identifier onto the local or remote remove list (dropping it when the previous
location is `None` or absent). -/
def partitionRemoves (runningLocationMap : RLMap) :
    List String → RLMap × List String × List String
  | [] => (runningLocationMap, [], [])
  | extensionId :: rest =>
    let runningLocation := mapGet runningLocationMap (toKey extensionId)
    let p := partitionRemoves (mapDelete runningLocationMap (toKey extensionId)) rest
    match runningLocation with
    | some .LocalWebWorker => (p.1, extensionId :: p.2.1, p.2.2)
    | some .Remote => (p.1, p.2.1, extensionId :: p.2.2)
    | _ => p

/-- The observable outcome of one `_updateExtensionsOnExtHosts` call: the bookkeeping
map after the pass, whether each host's `deltaExtensions` call was issued, and whether
the returned promise resolved (`succeeded = false` embeds a rejection). -/
structure UpdateOutcome where
  runningLocationAfter : RLMap
  issuedLocal : Bool
  issuedRemote : Bool
  succeeded : Bool
deriving DecidableEq

/-- `_updateExtensionsOnExtHosts` (lines 106–146).  The two external
`deltaExtensions` promises are oracle booleans (`true` = the host accepted the delta);
host-manager availability (`_getExtensionHostManager` returning a manager or not) is a
boolean per host kind.  The source `await`s the local host's call before even testing
the remote lists, so a local rejection propagates out of the method and the remote call
is never issued; a remote rejection happens after the local call completed. -/
def _updateExtensionsOnExtHosts (runningLocationMap : RLMap)
    (toAdd : List ExtensionDescription) (toRemove : List String)
    (localHostAvailable remoteHostAvailable localDeltaOk remoteDeltaOk : Bool) :
    UpdateOutcome :=
  let pa := partitionAdds runningLocationMap toAdd
  let pr := partitionRemoves pa.1 toRemove
  let issueLocal := (decide (pa.2.1 ≠ []) || decide (pr.2.1 ≠ [])) && localHostAvailable
  if issueLocal && !localDeltaOk then
    { runningLocationAfter := pr.1, issuedLocal := true, issuedRemote := false,
      succeeded := false }
  else
    let issueRemote := (decide (pa.2.2 ≠ []) || decide (pr.2.2 ≠ [])) && remoteHostAvailable
    { runningLocationAfter := pr.1, issuedLocal := issueLocal, issuedRemote := issueRemote,
      succeeded := !(issueRemote && !remoteDeltaOk) }

/-- The slice of the remote environment (`IRemoteAgentEnvironment`) that the snapshot
copies and this verification tracks; the remaining fields (paths, connection data) are
opaque payload outside every claim. -/
structure RemoteEnvironment where
  pid : Nat
deriving DecidableEq

/-- The slice of `IRemoteExtensionHostInitData` the claims are about: the remote-placed
extension list and the full merged registry list, plus the `pid` copied from the
environment. -/
structure RemoteInitData where
  pid : Nat
  extensions : List ExtensionDescription
  allExtensions : List ExtensionDescription
deriving DecidableEq

/-- Modelled from the spec: the extension registry (`this._registry`, inherited from
`AbstractExtensionService`, which is not part of this source slice).  Per spec §3 a
record whose identity is already registered supersedes the old record, and
`getAllExtensionDescriptions` returns all registered records; dependency-loop removal
is an external concern (spec §1/§6) and is not modelled.  `deltaExtensions(toAdd, [])`
therefore keeps the previous records whose identity is not superseded and appends
`toAdd`. -/
def registryDeltaExtensions (prev toAdd : List ExtensionDescription) :
    List ExtensionDescription :=
  prev.filter (fun ext => decide (toKey ext.identifier ∉ extKeys toAdd)) ++ toAdd

/-- The state produced by one `_scanAndHandleExtensions` pass: the new
`this._runningLocation` table, the registry contents after
`deltaExtensions(remote.concat(local), [])`, and the `this._remoteInitData` field
after the pass. -/
structure ScanResult where
  runningLocation : RLMap
  registry : List ExtensionDescription
  remoteInitData : Option RemoteInitData
deriving DecidableEq

/-- `_scanAndHandleExtensions` (lines 192–228).  The catalog inputs are the scanned
lists after the external `_checkEnabledAndProposedAPI` filter; `remoteEnv` is the
result of `getEnvironment()` and `hasRemoteAgentConnection` whether `getConnection()`
is non-null.  The pass builds the placement table with
`hasRemote = Boolean(remoteEnv && remoteAgentConnection)`, filters each catalog to its
host, feeds the union to the registry, and — only when both a remote environment and a
connection are present — overwrites `this._remoteInitData` with a fresh snapshot whose
`extensions` are the remote-filtered catalog and whose `allExtensions` are the
registry contents. -/
def _scanAndHandleExtensions (localExtensions remoteExtensions : List ExtensionDescription)
    (remoteEnv : Option RemoteEnvironment) (hasRemoteAgentConnection : Bool)
    (prevRegistry : List ExtensionDescription) (prevRemoteInitData : Option RemoteInitData) :
    ScanResult :=
  let hasRemote := remoteEnv.isSome && hasRemoteAgentConnection
  let runningLocation := _determineRunningLocation localExtensions remoteExtensions hasRemote
  let localFiltered := filterByRunningLocation localExtensions runningLocation .LocalWebWorker
  let remoteFiltered := filterByRunningLocation remoteExtensions runningLocation .Remote
  let registry := registryDeltaExtensions prevRegistry (remoteFiltered ++ localFiltered)
  let remoteInitData :=
    match remoteEnv, hasRemoteAgentConnection with
    | some env, true =>
      some { pid := env.pid, extensions := remoteFiltered, allExtensions := registry }
    | _, _ => prevRemoteInitData
  { runningLocation := runningLocation, registry := registry, remoteInitData := remoteInitData }

/-! ## Association-list map lemmas -/

theorem mapGet_mapSet {α : Type} (m : List (String × α)) (k k' : String) (v : α) :
    mapGet (mapSet m k v) k' = if k = k' then some v else mapGet m k' := by
  induction m with
  | nil => simp [mapSet, mapGet]
  | cons kv rest ih =>
    obtain ⟨k0, v0⟩ := kv
    by_cases h0 : k0 = k
    · subst h0
      by_cases h1 : k0 = k' <;> simp [mapSet, mapGet, h1]
    · by_cases h1 : k0 = k'
      · have h2 : ¬(k = k') := fun hh => h0 (h1.trans hh.symm)
        simp [mapSet, mapGet, h0, h1, h2, Ne.symm h2]
      · simp [mapSet, mapGet, h0, h1, ih]

theorem mapGet_mapDelete {α : Type} (m : List (String × α)) (k k' : String) (h : k ≠ k') :
    mapGet (mapDelete m k) k' = mapGet m k' := by
  induction m with
  | nil => rfl
  | cons kv rest ih =>
    obtain ⟨k0, v0⟩ := kv
    by_cases h0 : k0 = k
    · subst h0
      simp [mapDelete, mapGet, h]
    · by_cases h1 : k0 = k' <;> simp [mapDelete, mapGet, h0, h1, ih, Ne.symm h]

/-! ## Lookup characterization of the placement-table builders -/

theorem determineRunningLocation_eq_folds (L R : List ExtensionDescription)
    (kinds : List (String × List ExtensionKind)) (hasRemote : Bool) :
    determineRunningLocation L R kinds hasRemote =
      R.foldl (fun m ext => mapSet m (toKey ext.identifier) (pickAtKey L R kinds (toKey ext.identifier)))
        (L.foldl (fun m ext => mapSet m (toKey ext.identifier) (pickAtKey L R kinds (toKey ext.identifier)))
          []) := rfl

theorem mapGet_foldl_pick (L R : List ExtensionDescription)
    (kinds : List (String × List ExtensionKind)) (l : List ExtensionDescription)
    (m0 : RLMap) (k : String) :
    mapGet (l.foldl
        (fun m ext => mapSet m (toKey ext.identifier) (pickAtKey L R kinds (toKey ext.identifier)))
        m0) k =
      if k ∈ extKeys l then some (pickAtKey L R kinds k) else mapGet m0 k := by
  induction l generalizing m0 with
  | nil => simp [extKeys]
  | cons e l ih =>
    simp only [List.foldl_cons, ih, mapGet_mapSet]
    simp only [extKeys, List.map_cons, List.mem_cons, List.mem_map]
    by_cases h1 : ∃ a ∈ l, toKey a.identifier = k
    · simp [h1]
    · by_cases h2 : toKey e.identifier = k
      · simp [h1, h2]
      · have h2' : ¬(k = toKey e.identifier) := fun hh => h2 hh.symm
        simp [h1, h2, h2']

theorem determineRunningLocation_lookup (L R : List ExtensionDescription)
    (kinds : List (String × List ExtensionKind)) (hasRemote : Bool) (k : String) :
    mapGet (determineRunningLocation L R kinds hasRemote) k =
      if k ∈ extKeys L ∨ k ∈ extKeys R then
        some (pickRunningLocation ((mapGet kinds k).getD [])
          (decide (k ∈ extKeys L)) (decide (k ∈ extKeys R)))
      else none := by
  rw [determineRunningLocation_eq_folds, mapGet_foldl_pick, mapGet_foldl_pick]
  by_cases h1 : k ∈ extKeys L <;> by_cases h2 : k ∈ extKeys R <;>
    simp [h1, h2, pickAtKey, mapGet]

/-! ## Last-write-wins characterization of the kind map -/

theorem lastWithKey_cons (e : ExtensionDescription) (l : List ExtensionDescription)
    (k : String) :
    lastWithKey (e :: l) k =
      (lastWithKey l k).or (if toKey e.identifier = k then some e else none) := by
  by_cases h : toKey e.identifier = k <;>
    simp [lastWithKey, List.reverse_cons, List.find?_append, h]

theorem lastWithKey_eq_none_iff (l : List ExtensionDescription) (k : String) :
    lastWithKey l k = none ↔ k ∉ extKeys l := by
  simp [lastWithKey, List.find?_eq_none, extKeys, List.mem_reverse]

theorem mapGet_foldl_kinds (l : List ExtensionDescription)
    (m0 : List (String × List ExtensionKind)) (k : String) :
    mapGet (l.foldl (fun m ext => mapSet m (toKey ext.identifier) ext.extensionKinds) m0) k =
      match lastWithKey l k with
      | some e => some e.extensionKinds
      | none => mapGet m0 k := by
  induction l generalizing m0 with
  | nil => simp [lastWithKey]
  | cons e l ih =>
    simp only [List.foldl_cons, ih, lastWithKey_cons]
    cases hlast : lastWithKey l k with
    | some e' => simp [Option.or]
    | none =>
      by_cases h : toKey e.identifier = k
      · subst h
        simp [Option.or, mapGet_mapSet]
      · simp [Option.or, h, mapGet_mapSet]

theorem allExtensionKindsMap_lookup (L R : List ExtensionDescription) (k : String) :
    mapGet (allExtensionKindsMap L R) k =
      match lastWithKey R k with
      | some e => some e.extensionKinds
      | none =>
        match lastWithKey L k with
        | some e => some e.extensionKinds
        | none => none := by
  show mapGet (R.foldl _ (L.foldl _ [])) k = _
  rw [mapGet_foldl_kinds, mapGet_foldl_kinds]
  cases lastWithKey R k <;> cases lastWithKey L k <;> simp [mapGet]

/-! ## Partition characterizations -/

theorem partitionAdds_filters (st : RLMap) (toAdd : List ExtensionDescription) :
    (partitionAdds st toAdd).2.1 =
      toAdd.filter (fun e => decide (addRunningLocation e = .LocalWebWorker)) ∧
    (partitionAdds st toAdd).2.2 =
      toAdd.filter (fun e => decide (addRunningLocation e = .Remote)) := by
  induction toAdd generalizing st with
  | nil => simp [partitionAdds]
  | cons e l ih =>
    obtain ⟨ih1, ih2⟩ := ih (mapSet st (toKey e.identifier) (addRunningLocation e))
    cases hrl : addRunningLocation e <;> rw [hrl] at ih1 ih2 <;>
      simp [partitionAdds, hrl, ih1, ih2, List.filter_cons]

theorem partitionRemoves_filters (st : RLMap) (toRemove : List String)
    (hkeys : (toRemove.map toKey).Nodup) :
    (partitionRemoves st toRemove).2.1 =
      toRemove.filter (fun id => decide (mapGet st (toKey id) = some .LocalWebWorker)) ∧
    (partitionRemoves st toRemove).2.2 =
      toRemove.filter (fun id => decide (mapGet st (toKey id) = some .Remote)) := by
  induction toRemove generalizing st with
  | nil => simp [partitionRemoves]
  | cons id rest ih =>
    rw [List.map_cons] at hkeys
    have hnd := List.nodup_cons.mp hkeys
    obtain ⟨ih1, ih2⟩ := ih (mapDelete st (toKey id)) hnd.2
    have hcongr : ∀ id' ∈ rest,
        mapGet (mapDelete st (toKey id)) (toKey id') = mapGet st (toKey id') := by
      intro id' hid'
      apply mapGet_mapDelete
      intro hh
      apply hnd.1
      rw [hh]
      exact List.mem_map.mpr ⟨id', hid', rfl⟩
    have hf1 : rest.filter
        (fun id' => decide (mapGet (mapDelete st (toKey id)) (toKey id') = some .LocalWebWorker)) =
        rest.filter (fun id' => decide (mapGet st (toKey id') = some .LocalWebWorker)) := by
      apply List.filter_congr
      intro id' hid'
      rw [hcongr id' hid']
    have hf2 : rest.filter
        (fun id' => decide (mapGet (mapDelete st (toKey id)) (toKey id') = some .Remote)) =
        rest.filter (fun id' => decide (mapGet st (toKey id') = some .Remote)) := by
      apply List.filter_congr
      intro id' hid'
      rw [hcongr id' hid']
    rw [hf1] at ih1
    rw [hf2] at ih2
    cases hrl : mapGet st (toKey id) with
    | none => simp [partitionRemoves, hrl, ih1, ih2, List.filter_cons]
    | some loc =>
      cases loc <;> simp [partitionRemoves, hrl, ih1, ih2, List.filter_cons]

/-! ## Claim theorems -/

/-- C5: partition completeness of the added records — within one pass, a record whose
computed decision is `None` is sent to no host; a record with decision
`LocalWebWorker` (resp. `Remote`) appears in the local (resp. remote) add list and in
no other; and, provided the pass's added identities are pairwise distinct (as they are
for a registry delta), no identity ever appears in both hosts' add lists. -/
theorem partitionAdds_partition_C5 (st : RLMap) (toAdd : List ExtensionDescription)
    (hkeys : (toAdd.map (fun e => toKey e.identifier)).Nodup) :
    (∀ e ∈ toAdd, addRunningLocation e = .None →
       e ∉ (partitionAdds st toAdd).2.1 ∧ e ∉ (partitionAdds st toAdd).2.2) ∧
    (∀ e ∈ toAdd, addRunningLocation e = .LocalWebWorker →
       e ∈ (partitionAdds st toAdd).2.1 ∧ e ∉ (partitionAdds st toAdd).2.2) ∧
    (∀ e ∈ toAdd, addRunningLocation e = .Remote →
       e ∈ (partitionAdds st toAdd).2.2 ∧ e ∉ (partitionAdds st toAdd).2.1) ∧
    (∀ e ∈ (partitionAdds st toAdd).2.1, ∀ e' ∈ (partitionAdds st toAdd).2.2,
       toKey e.identifier ≠ toKey e'.identifier) := by
  obtain ⟨h1, h2⟩ := partitionAdds_filters st toAdd
  rw [h1, h2]
  refine ⟨?_, ?_, ?_, ?_⟩
  · intro e he hd
    constructor <;>
      · intro hmem
        have := (List.mem_filter.mp hmem).2
        simp [hd] at this
  · intro e he hd
    refine ⟨List.mem_filter.mpr ⟨he, by simp [hd]⟩, ?_⟩
    intro hmem
    have := (List.mem_filter.mp hmem).2
    simp [hd] at this
  · intro e he hd
    refine ⟨List.mem_filter.mpr ⟨he, by simp [hd]⟩, ?_⟩
    intro hmem
    have := (List.mem_filter.mp hmem).2
    simp [hd] at this
  · intro e he e' he' hk
    have h3 := List.mem_filter.mp he
    have h4 := List.mem_filter.mp he'
    have heq : e = e' := List.inj_on_of_nodup_map hkeys h3.1 h4.1 hk
    have hl := of_decide_eq_true h3.2
    have hr := of_decide_eq_true h4.2
    rw [heq] at hl
    exact absurd (hl.symm.trans hr) (by decide)

theorem partitionAdds_partition_C5_witness :
    (⟨"e1", [ExtensionKind.web], false⟩ : ExtensionDescription) ∈
      (partitionAdds []
        [⟨"e1", [.web], false⟩, ⟨"e2", [.ui], true⟩, ⟨"e3", [], false⟩]).2.1 ∧
    (⟨"e1", [ExtensionKind.web], false⟩ : ExtensionDescription) ∉
      (partitionAdds []
        [⟨"e1", [.web], false⟩, ⟨"e2", [.ui], true⟩, ⟨"e3", [], false⟩]).2.2 :=
  (partitionAdds_partition_C5 []
      [⟨"e1", [.web], false⟩, ⟨"e2", [.ui], true⟩, ⟨"e3", [], false⟩]
      (by decide)).2.1
    ⟨"e1", [.web], false⟩ (by decide) (by decide)

/-- C6: removed identities are routed by the decision read from the bookkeeping map
before the entry is deleted: with pairwise-distinct removed identities, an identity
whose recorded decision is `LocalWebWorker` goes to the local remove list only, one
recorded `Remote` goes to the remote remove list only, and one recorded `None` or
absent goes to neither. -/
theorem partitionRemoves_previous_decision_C6 (st : RLMap) (toRemove : List String)
    (hkeys : (toRemove.map toKey).Nodup) :
    ∀ id ∈ toRemove,
      (mapGet st (toKey id) = some .LocalWebWorker →
         id ∈ (partitionRemoves st toRemove).2.1 ∧ id ∉ (partitionRemoves st toRemove).2.2) ∧
      (mapGet st (toKey id) = some .Remote →
         id ∈ (partitionRemoves st toRemove).2.2 ∧ id ∉ (partitionRemoves st toRemove).2.1) ∧
      (mapGet st (toKey id) = some .None ∨ mapGet st (toKey id) = none →
         id ∉ (partitionRemoves st toRemove).2.1 ∧ id ∉ (partitionRemoves st toRemove).2.2) := by
  obtain ⟨h1, h2⟩ := partitionRemoves_filters st toRemove hkeys
  rw [h1, h2]
  intro id hid
  refine ⟨fun hd => ⟨List.mem_filter.mpr ⟨hid, by simp [hd]⟩, ?_⟩,
          fun hd => ⟨List.mem_filter.mpr ⟨hid, by simp [hd]⟩, ?_⟩,
          fun hd => ⟨?_, ?_⟩⟩
  · intro hmem
    have := (List.mem_filter.mp hmem).2
    simp [hd] at this
  · intro hmem
    have := (List.mem_filter.mp hmem).2
    simp [hd] at this
  · intro hmem
    have := (List.mem_filter.mp hmem).2
    rcases hd with hd | hd <;> simp [hd] at this
  · intro hmem
    have := (List.mem_filter.mp hmem).2
    rcases hd with hd | hd <;> simp [hd] at this

theorem partitionRemoves_previous_decision_C6_witness :
    "e1" ∈ (partitionRemoves
        [("e1", ExtensionRunningLocation.LocalWebWorker), ("e2", ExtensionRunningLocation.Remote)]
        ["e1", "e2", "e3"]).2.1 ∧
    "e1" ∉ (partitionRemoves
        [("e1", ExtensionRunningLocation.LocalWebWorker), ("e2", ExtensionRunningLocation.Remote)]
        ["e1", "e2", "e3"]).2.2 :=
  ((partitionRemoves_previous_decision_C6
      [("e1", .LocalWebWorker), ("e2", .Remote)] ["e1", "e2", "e3"]
      (by decide)) "e1" (by decide)).1 (by decide)

/-- C2 counterexample: a pass whose local delta is non-empty and rejected, and whose
remote delta is non-empty with the remote host available — the source `await`s the
local `deltaExtensions` call first, the rejection propagates, and the remote call is
never issued, contradicting the claim that the two calls are independent and that one
host's failure cannot prevent the other's call. -/
theorem updateExtHosts_concurrency_counterexample_C2 :
    (partitionAdds [] [⟨"e1", [.web], false⟩, ⟨"e2", [.ui], true⟩]).2.2 ≠ [] ∧
    (_updateExtensionsOnExtHosts [] [⟨"e1", [.web], false⟩, ⟨"e2", [.ui], true⟩] []
        true true false true).issuedLocal = true ∧
    (_updateExtensionsOnExtHosts [] [⟨"e1", [.web], false⟩, ⟨"e2", [.ui], true⟩] []
        true true false true).issuedRemote = false := by
  decide

/-- C2 amended: within one pass the two host deltas are dispatched sequentially, local
first: when the local call is issued and rejects, the overall call rejects and the
remote call is never issued; conversely whether the local call is issued never depends
on the remote host's availability or on the remote call's outcome (the remote call is
only reached after the local call has completed successfully or was skipped). -/
theorem updateExtHosts_sequential_C2 (st : RLMap) (toAdd : List ExtensionDescription)
    (toRemove : List String) (la ra rok ra' lok lok' rok' : Bool) :
    ((_updateExtensionsOnExtHosts st toAdd toRemove la ra false rok).issuedLocal = true →
       (_updateExtensionsOnExtHosts st toAdd toRemove la ra false rok).issuedRemote = false ∧
       (_updateExtensionsOnExtHosts st toAdd toRemove la ra false rok).succeeded = false) ∧
    (_updateExtensionsOnExtHosts st toAdd toRemove la ra lok rok).issuedLocal =
      (_updateExtensionsOnExtHosts st toAdd toRemove la ra' lok' rok').issuedLocal := by
  constructor
  · simp only [_updateExtensionsOnExtHosts]
    split
    next h => exact fun _ => ⟨rfl, rfl⟩
    next h =>
      intro hloc
      exfalso
      apply h
      simp only [Bool.not_false, Bool.and_true]
      exact hloc
  · simp only [_updateExtensionsOnExtHosts]
    split
    next h1 =>
      split
      next h2 => rfl
      next h2 => exact ((Bool.and_eq_true _ _).mp h1).1.symm
    next h1 =>
      split
      next h2 => exact ((Bool.and_eq_true _ _).mp h2).1
      next h2 => rfl

theorem updateExtHosts_sequential_C2_witness :
    (_updateExtensionsOnExtHosts [] [⟨"e1", [.web], false⟩, ⟨"e2", [.ui], true⟩] []
        true true false true).issuedRemote = false ∧
    (_updateExtensionsOnExtHosts [] [⟨"e1", [.web], false⟩, ⟨"e2", [.ui], true⟩] []
        true true false true).succeeded = false :=
  (updateExtHosts_sequential_C2 [] [⟨"e1", [.web], false⟩, ⟨"e2", [.ui], true⟩] []
      true true true true true true true).1 (by decide)

/-- C4 counterexample: a pass that adds one locally-placed extension whose local
`deltaExtensions` call rejects — the pass fails, yet `this._runningLocation` was
already mutated during partitioning, so the bookkeeping is not left at its pre-delta
(empty) value as the claim requires. -/
theorem updateExtHosts_bookkeeping_counterexample_C4 :
    (_updateExtensionsOnExtHosts [] [⟨"e1", [.web], false⟩] [] true true false true).succeeded
      = false ∧
    mapGet (_updateExtensionsOnExtHosts [] [⟨"e1", [.web], false⟩] []
        true true false true).runningLocationAfter (toKey "e1") =
      some ExtensionRunningLocation.LocalWebWorker ∧
    mapGet ([] : RLMap) (toKey "e1") = none := by
  decide

/-- C4 amended: the running-location bookkeeping is updated eagerly while the delta is
partitioned, before any host call is dispatched — the map after the pass is exactly
the partition-updated map (adds recorded, removes deleted) regardless of host
availability and regardless of whether either host's delta call succeeds or rejects. -/
theorem updateExtHosts_bookkeeping_eager_C4 (st : RLMap) (toAdd : List ExtensionDescription)
    (toRemove : List String) (la ra lok rok la' ra' lok' rok' : Bool) :
    (_updateExtensionsOnExtHosts st toAdd toRemove la ra lok rok).runningLocationAfter =
      (partitionRemoves (partitionAdds st toAdd).1 toRemove).1 ∧
    (_updateExtensionsOnExtHosts st toAdd toRemove la ra lok rok).runningLocationAfter =
      (_updateExtensionsOnExtHosts st toAdd toRemove la' ra' lok' rok').runningLocationAfter := by
  constructor
  · simp only [_updateExtensionsOnExtHosts]
    split <;> rfl
  · simp only [_updateExtensionsOnExtHosts]
    split <;> split <;> rfl

/-- C7: the placement computation is deterministic and free of iteration-order
dependence: two calls of `determineRunningLocation` on catalogs with the same key
membership (in particular, on identical or merely reordered inputs) and the same kind
map produce tables with identical decisions for every identity. -/
theorem determineRunningLocation_deterministic_C7 (L L' R R' : List ExtensionDescription)
    (kinds : List (String × List ExtensionKind)) (hasRemote : Bool)
    (hL : ∀ k, k ∈ extKeys L ↔ k ∈ extKeys L')
    (hR : ∀ k, k ∈ extKeys R ↔ k ∈ extKeys R') :
    ∀ k, mapGet (determineRunningLocation L R kinds hasRemote) k =
      mapGet (determineRunningLocation L' R' kinds hasRemote) k := by
  intro k
  rw [determineRunningLocation_lookup, determineRunningLocation_lookup]
  simp only [← hL k, ← hR k]

theorem determineRunningLocation_deterministic_C7_witness :
    mapGet (determineRunningLocation
        [⟨"a", [.ui], false⟩, ⟨"b", [.web], false⟩] [⟨"c", [.workspace], true⟩] [] true) "a" =
      mapGet (determineRunningLocation
        [⟨"b", [.web], false⟩, ⟨"a", [.ui], false⟩] [⟨"c", [.workspace], true⟩] [] true) "a" :=
  determineRunningLocation_deterministic_C7
    [⟨"a", [.ui], false⟩, ⟨"b", [.web], false⟩]
    [⟨"b", [.web], false⟩, ⟨"a", [.ui], false⟩]
    [⟨"c", [.workspace], true⟩] [⟨"c", [.workspace], true⟩] [] true
    (fun k => by simp [extKeys]; exact Or.comm) (fun k => Iff.rfl) "a"

/-- C10: when an identity appears (case-insensitively) in both catalogs, the tags used
to place it are the remote record's: the kind map holds the last remote record's tags
for that key, and replacing the local records' tag lists (keeping their identifiers)
does not change the identity's placement. -/
theorem remote_kinds_precedence_C10 (L L' R : List ExtensionDescription) (hasRemote : Bool)
    (k : String) (hkeys : extKeys L = extKeys L') (hk : k ∈ extKeys R) :
    (∀ e, lastWithKey R k = some e →
       mapGet (allExtensionKindsMap L R) k = some e.extensionKinds) ∧
    mapGet (_determineRunningLocation L R hasRemote) k =
      mapGet (_determineRunningLocation L' R hasRemote) k := by
  have hsome : lastWithKey R k ≠ none := by
    rw [Ne, lastWithKey_eq_none_iff]
    simpa using hk
  obtain ⟨e, he⟩ := Option.ne_none_iff_exists'.mp hsome
  have key1 : mapGet (allExtensionKindsMap L R) k = some e.extensionKinds := by
    rw [allExtensionKindsMap_lookup, he]
  have key2 : mapGet (allExtensionKindsMap L' R) k = some e.extensionKinds := by
    rw [allExtensionKindsMap_lookup, he]
  refine ⟨fun e' he' => ?_, ?_⟩
  · rw [he] at he'
    cases he'
    exact key1
  · unfold _determineRunningLocation
    rw [determineRunningLocation_lookup, determineRunningLocation_lookup, key1, key2, hkeys]

theorem remote_kinds_precedence_C10_witness :
    mapGet (_determineRunningLocation [⟨"a", [.web], false⟩] [⟨"A", [.workspace], true⟩] true) "a" =
      mapGet (_determineRunningLocation [⟨"a", [.ui], false⟩] [⟨"A", [.workspace], true⟩] true) "a" :=
  (remote_kinds_precedence_C10 [⟨"a", [.web], false⟩] [⟨"a", [.ui], false⟩]
    [⟨"A", [.workspace], true⟩] true "a" (by decide) (by decide)).2

/-- C1: the capability resolver is a pure first-match-wins scan: for every ordered tag
sequence and installation flags, `pickRunningLocation` returns the decision of the first
tag whose rule fires (`ui`/`workspace` with a remote installation give `Remote`, `web`
with a local installation gives `LocalWebWorker`), and `None` when no tag matches —
in particular on the empty sequence; being a total function it never fails. -/
theorem pickRunningLocation_first_match_C1 (capabilityTags : List ExtensionKind)
    (installedLocally installedRemotely : Bool) :
    pickRunningLocation capabilityTags installedLocally installedRemotely =
      (capabilityTags.findSome?
        (fun tag => tagDecisionSpec tag installedLocally installedRemotely)).getD .None := by
  induction capabilityTags with
  | nil => rfl
  | cons tag rest ih =>
    cases tag <;> cases installedLocally <;> cases installedRemotely <;>
      simp [pickRunningLocation, tagDecisionSpec, List.findSome?, ih]

/-- C3 counterexample: an extension declaring exactly `["ui"]` that is installed locally
but not remotely resolves to `None` even when a remote environment is available
(`hasRemote = true`) — remote availability alone does not make the `ui` rule fire,
so the claimed decision `RemoteHost` is wrong at this input. -/
theorem ui_remote_availability_counterexample_C3 :
    mapGet (_determineRunningLocation [⟨"e1", [.ui], false⟩] [] true) (toKey "e1") =
      some ExtensionRunningLocation.None ∧
    mapGet (_determineRunningLocation [⟨"e1", [.ui], false⟩] [] true) (toKey "e1") ≠
      some ExtensionRunningLocation.Remote := by
  decide

/-- C3 amended: for an extension declaring exactly `["ui"]` the decision is `Remote`
exactly when the extension is installed remotely — irrespective of local installation
and hence of mere remote availability — and it is never `LocalWebWorker`. -/
theorem ui_tag_placement_C3 (installedLocally installedRemotely : Bool) :
    pickRunningLocation [.ui] installedLocally installedRemotely =
      (if installedRemotely then .Remote else .None) ∧
    pickRunningLocation [.ui] installedLocally installedRemotely ≠ .LocalWebWorker := by
  revert installedLocally installedRemotely
  decide

/-- C8: after a full-catalog reconciliation pass (starting with no previous snapshot),
a remote-init snapshot is retained if and only if a remote environment and a remote
agent connection are both present; any retained snapshot's remote extension list is
exactly the remote catalog filtered to decision `Remote`, and its merged list is the
complete registry contents after the pass. -/
theorem scanAndHandleExtensions_snapshot_C8 (L R : List ExtensionDescription)
    (remoteEnv : Option RemoteEnvironment) (conn : Bool)
    (prevRegistry : List ExtensionDescription) :
    ((_scanAndHandleExtensions L R remoteEnv conn prevRegistry none).remoteInitData.isSome = true ↔
       remoteEnv.isSome = true ∧ conn = true) ∧
    (∀ s, (_scanAndHandleExtensions L R remoteEnv conn prevRegistry none).remoteInitData = some s →
       s.extensions = filterByRunningLocation R
         (_scanAndHandleExtensions L R remoteEnv conn prevRegistry none).runningLocation .Remote ∧
       s.allExtensions = (_scanAndHandleExtensions L R remoteEnv conn prevRegistry none).registry) := by
  cases remoteEnv with
  | none => cases conn <;> simp [_scanAndHandleExtensions]
  | some env => cases conn <;> simp [_scanAndHandleExtensions]

theorem scanAndHandleExtensions_snapshot_C8_witness :
    (_scanAndHandleExtensions [⟨"e2", [.web], false⟩] [⟨"e1", [.ui], true⟩]
        (some ⟨42⟩) true [] none).remoteInitData.isSome = true ∧
    (⟨42, [⟨"e1", [.ui], true⟩], [⟨"e1", [.ui], true⟩, ⟨"e2", [.web], false⟩]⟩ :
        RemoteInitData).extensions =
      filterByRunningLocation [⟨"e1", [.ui], true⟩]
        (_scanAndHandleExtensions [⟨"e2", [.web], false⟩] [⟨"e1", [.ui], true⟩]
          (some ⟨42⟩) true [] none).runningLocation .Remote ∧
    (⟨42, [⟨"e1", [.ui], true⟩], [⟨"e1", [.ui], true⟩, ⟨"e2", [.web], false⟩]⟩ :
        RemoteInitData).allExtensions =
      (_scanAndHandleExtensions [⟨"e2", [.web], false⟩] [⟨"e1", [.ui], true⟩]
        (some ⟨42⟩) true [] none).registry := by
  have h := scanAndHandleExtensions_snapshot_C8 [⟨"e2", [.web], false⟩] [⟨"e1", [.ui], true⟩]
    (some ⟨42⟩) true []
  exact ⟨h.1.mpr ⟨rfl, rfl⟩, (h.2 _ (by decide)).1, (h.2 _ (by decide)).2⟩

/-- C9: the `hasRemote` flag has no influence on placement — `determineRunningLocation`
(and the full `_determineRunningLocation` pipeline) return identical tables for
`hasRemote = true` and `hasRemote = false`; decisions depend only on catalog
membership and declared tags. -/
theorem hasRemote_no_influence_C9 (localExtensions remoteExtensions : List ExtensionDescription)
    (allExtensionKinds : List (String × List ExtensionKind)) (hr hr' : Bool) :
    determineRunningLocation localExtensions remoteExtensions allExtensionKinds hr =
      determineRunningLocation localExtensions remoteExtensions allExtensionKinds hr' ∧
    _determineRunningLocation localExtensions remoteExtensions hr =
      _determineRunningLocation localExtensions remoteExtensions hr' :=
  ⟨rfl, rfl⟩
